import Mathlib

/-!
The markdown-render demo program `main.go`.

`main.go` reads `test.md`, hands the bytes to the Markdown parser, prints a few
diagnostics about the first child of the returned Document and then walks the
tree with a visitor that reports every Paragraph.

The development below embeds `main` and its visitor from `src/main.go`.  The
parser and the tree walker are library code that is not part of the sources;
they are modelled from sections 4.1, 4.2 and 4.3 of the specification and are
marked as such.
-/

namespace MarkdownRender

/-! ## Byte strings and standard output -/

/-- Go `string` and `[]byte` values: sequences of bytes. -/
abbrev Bytes := List UInt8

/-- The bytes of a Go string constant (Go source text is UTF-8). -/
def bytesOf (s : String) : Bytes := s.toUTF8.data.toList

/-- The byte stream written by a sequence of `fmt.Println` calls: every
argument is followed by a newline. -/
def render : List Bytes → Bytes
  | [] => []
  | s :: rest => s ++ 10 :: render rest

/-- The lines of a byte stream, cut at every newline byte. -/
def splitLines : Bytes → List Bytes
  | [] => []
  | b :: bs =>
    if b = 10 then [] :: splitLines bs
    else
      match splitLines bs with
      | [] => [[b]]
      | l :: ls => (b :: l) :: ls

/-- The lines that one `fmt.Println(s)` call contributes to the output. -/
def linesOf (s : Bytes) : List Bytes := splitLines (s ++ [10])

/-- Go's conversion `string(i)` of an integer: the UTF-8 encoding of the code
point `i`, and of U+FFFD when `i` is not a valid code point. -/
def goString (i : Int) : Bytes :=
  if (0 ≤ i ∧ i < 0xD800) ∨ (0xE000 ≤ i ∧ i ≤ 0x10FFFF) then
    String.utf8EncodeChar (Char.ofNat i.toNat)
  else
    String.utf8EncodeChar (Char.ofNat 0xFFFD)

/-! ## The document tree -/

/-- The library's `NodeType`: an integer tag. -/
abbrev NodeType := Int

/-- Kind-specific data of a heading (the spec: "heading level 1–6"). -/
structure HeadingData where
  Level : Nat
deriving DecidableEq, Repr

/-- A node of the document tree.  The owned child sequence
`FirstChild … LastChild` is the list `children`; `Parent`, `Prev` and `Next`
are determined by the position of the node in the tree. -/
inductive Node where
  | mk (ty : NodeType) (lit : Bytes) (hd : HeadingData) (cs : List Node)

namespace Node

/-- Field `Type` (`Type` is reserved in Lean). -/
def type : Node → NodeType
  | mk t _ _ _ => t

/-- Field `Literal`. -/
def Literal : Node → Bytes
  | mk _ l _ _ => l

/-- Field `HeadingData`. -/
def HeadingData : Node → MarkdownRender.HeadingData
  | mk _ _ h _ => h

/-- The children, in sibling order. -/
def children : Node → List Node
  | mk _ _ _ cs => cs

/-- Field `FirstChild` (`none` is the nil pointer). -/
def FirstChild (n : Node) : Option Node := n.children.head?

/-- Field `LastChild` (`none` is the nil pointer). -/
def LastChild (n : Node) : Option Node := n.children.getLast?

end Node

/-- The node-type constants that `main` and the parser use.  Their declaration
(an enumeration of distinct integer tags) is library code outside the sources,
so the values are a parameter; only their distinctness is assumed. -/
structure NodeTypes where
  Document : NodeType
  Paragraph : NodeType
  Heading : NodeType
  Text : NodeType
  distinct : [Document, Paragraph, Heading, Text].Nodup

/-- One admissible numbering of the constants, used for concrete runs. -/
def sampleTypes : NodeTypes := ⟨0, 4, 5, 12, by decide⟩

/-- Formatting done by library code outside the sources: the `String` method
of a node and the `%+v` rendering of a `HeadingData` value. -/
structure Formatting where
  String : Node → Bytes
  headingData : HeadingData → Bytes

/-- What `fmt.Println` writes for a `*Node`: `<nil>` for the nil pointer and
the result of the `String` method otherwise. -/
def printlnNode (F : Formatting) : Option Node → Bytes
  | none => bytesOf "<nil>"
  | some n => F.String n

/-! ## The tree walker -/

/-- The visitor's result: `GoToNext` is the spec's "continue". -/
inductive WalkStatus where
  | GoToNext
  | skipChildren
  | stop
deriving DecidableEq, Repr

/-- One call of a visitor: what it printed, and the status it returned;
`none` means the call dereferenced a nil node and never returned. -/
structure Visit where
  printed : List Bytes
  status : Option WalkStatus

/-- A visitor: `visitor(node, entering)`. -/
abbrev Visitor := Node → Bool → Visit

/-- How a walk ended. -/
inductive Flow where
  | completed
  | stopped
  | panicked
deriving DecidableEq, Repr

/-- The record of a walk: the visitor invocations in order, everything they
printed, and how the walk ended. -/
structure Trace where
  events : List (Node × Bool)
  printed : List Bytes
  flow : Flow

/-- The walk that delivers no event. -/
def Trace.empty : Trace := ⟨[], [], .completed⟩

/-- Modelled from the spec: sequencing of two parts of a walk; `b` happens only
if `a` ran to completion (section 4.3: `stop` halts the walk "with no further
events delivered at any level"; a visitor call that does not return ends the
walk as well). -/
def Trace.seq (a b : Trace) : Trace :=
  match a.flow with
  | .completed => ⟨a.events ++ b.events, a.printed ++ b.printed, b.flow⟩
  | _ => a

/-- Modelled from the spec: a single visitor invocation, one event of the walk
(section 4.3). -/
def visit (v : Visitor) (n : Node) (entering : Bool) : Trace :=
  ⟨[(n, entering)], (v n entering).printed,
    match (v n entering).status with
    | none => .panicked
    | some .stop => .stopped
    | some _ => .completed⟩

mutual
/-- Modelled from the spec: `Node.Walk` is library code outside the sources.
Section 4.3: pre-order depth-first; a non-leaf node yields an enter event and,
after all its children, a leave event; a leaf yields only an enter event;
`skipChildren` from an enter event prevents descent but still delivers the
leave event; `stop` halts the walk with no further events. -/
def walkNode (v : Visitor) : Node → Trace
  | .mk t l h cs =>
    match cs with
    | [] => visit v (.mk t l h []) true
    | c :: rest =>
      (visit v (.mk t l h (c :: rest)) true).seq
        ((if (v (.mk t l h (c :: rest)) true).status = some .skipChildren then Trace.empty
          else walkList v (c :: rest)).seq
          (visit v (.mk t l h (c :: rest)) false))
/-- Modelled from the spec: the walk over the children of a node, in sibling
order (section 4.3, "after all children"). -/
def walkList (v : Visitor) : List Node → Trace
  | [] => Trace.empty
  | c :: rest => (walkNode v c).seq (walkList v rest)
end

/-- Modelled from the spec: `walk(root, visitor)` of section 4.3, which stands
for the library's `Node.Walk` called by `main`. -/
def walk (root : Node) (v : Visitor) : Trace := walkNode v root

/-! ## `main.go` -/

/-- The constant of line 29. -/
def msgFound : Bytes := bytesOf "I found a paragraph"

/-- The constant of line 37. -/
def msgLeaving : Bytes := bytesOf "I'm leaving the paragraph"

/-- The function literal passed to `Walk` (lines 26–42). -/
def visitor (K : NodeTypes) (node : Node) (entering : Bool) : Visit :=
  if node.type = K.Paragraph then
    if entering then
      match node.FirstChild with
      | none => ⟨[msgFound], none⟩
      | some text =>
        if text.type = K.Text then ⟨[msgFound, text.Literal], some .GoToNext⟩
        else ⟨[msgFound], some .GoToNext⟩
    else ⟨[msgLeaving], some .GoToNext⟩
  else ⟨[], some .GoToNext⟩

/-- The ways in which a run of the program can fail. -/
inductive Failure where
  | inputUnreadable
  | nilDereference
deriving DecidableEq, Repr

/-- The two results of `ioutil.ReadFile`: the bytes read and whether the error
result is non-nil (the file is missing or unreadable). -/
structure ReadResult where
  data : Bytes
  unreadable : Bool

/-- What a run of the program does: the arguments of its successive print
calls, and the failure it ends with, if any. -/
structure Outcome where
  printed : List Bytes
  failure : Option Failure

/-- The byte stream on standard output. -/
def Outcome.stdout (o : Outcome) : Bytes := render o.printed

/-- Lines 13–42 of `main`, applied to the root `node` returned by the parser.
`heading` is the first child of `node`, so its `Parent` is `node`, its `Prev`
is nil and its `Next` is the second child of `node`. -/
def mainOn (K : NodeTypes) (F : Formatting) (node : Node) : Outcome :=
  match node.FirstChild with
  | none => ⟨[], some .nilDereference⟩
  | some heading =>
    let diagnostics : List Bytes :=
      [bytesOf "Type: " ++ goString heading.type] ++
      (if heading.type = K.Heading then [bytesOf "It is a heading"] else []) ++
      [printlnNode F (some node),
       printlnNode F heading.FirstChild,
       printlnNode F heading.LastChild,
       printlnNode F none,
       printlnNode F node.children.tail.head?,
       heading.Literal,
       F.headingData heading.HeadingData,
       F.String heading]
    let w := walk node (visitor K)
    ⟨diagnostics ++ w.printed,
      match w.flow with
      | .panicked => some .nilDereference
      | _ => none⟩

/-- The program `main` (lines 9–46): the error result of the file reader is
assigned to the blank identifier, the bytes go to `parse`. -/
def main (K : NodeTypes) (F : Formatting) (parse : Bytes → Node) (file : ReadResult) :
    Outcome :=
  let input := file.data
  let node := parse input
  mainOn K F node

/-! ## The parser -/

/-- Modelled from the spec: what a line of the input is to the block parser of
section 4.1. -/
inductive LineKind where
  | blank
  | heading (level : Nat) (content : Bytes)
  | text
deriving DecidableEq, Repr

/-- Modelled from the spec: the "blank line" of section 4.1, a line that holds
nothing but spaces, tabs and carriage returns. -/
def isBlank (line : Bytes) : Bool := line.all (fun b => b = 32 || b = 9 || b = 13)

/-- Modelled from the spec: the block-start test of the parser (library code
outside the sources), section 4.1: a heading is one to six `#` followed by a
space; a blank line; any other line is paragraph text ("worst case it falls
back to treating a line as a paragraph").  The other block starts named there
(thematic break, code block, blockquote, list item) come without a syntax in
the spec and are outside this model. -/
def classify (line : Bytes) : LineKind :=
  if isBlank line then .blank
  else
    let level := (line.takeWhile (· = 35)).length
    let rest := line.dropWhile (· = 35)
    if 1 ≤ level ∧ level ≤ 6 ∧ rest.head? = some 32 then .heading level rest.tail
    else .text

/-- Modelled from the spec: the "punctuation character" of section 4.2, taken
as ASCII punctuation. -/
def isPunct (b : UInt8) : Bool :=
  (33 ≤ b && b ≤ 47) || (58 ≤ b && b ≤ 64) || (91 ≤ b && b ≤ 96) || (123 ≤ b && b ≤ 126)

/-- Modelled from the spec: escaping in the inline parser, section 4.2: "a
backslash before a punctuation character consumes both and emits the literal
punctuation character as text". -/
def unescape : Bytes → Bytes
  | [] => []
  | [b] => [b]
  | b :: c :: rest =>
    if b = 92 ∧ isPunct c then c :: unescape rest
    else b :: unescape (c :: rest)

/-- Modelled from the spec: the inline parser `parseInline(rawSpan)` (library
code outside the sources), section 4.2, for plain text runs and escapes: a
non-empty span becomes one Text node that carries the literal.  Emphasis, code
spans and links are outside this model. -/
def parseInline (K : NodeTypes) (raw : Bytes) : List Node :=
  if raw = [] then [] else [.mk K.Text (unescape raw) ⟨0⟩ []]

/-- Modelled from the spec: the raw span of a paragraph, its lines joined by
newlines (section 4.1, lazy continuation). -/
def joinLines : List Bytes → Bytes
  | [] => []
  | [l] => l
  | l :: rest => l ++ 10 :: joinLines rest

/-- Modelled from the spec: closing the open paragraph, if there is one, yields
a Paragraph node whose children come from the inline parser (sections 4.1 and
4.2). -/
def closeParagraph (K : NodeTypes) : Option (List Bytes) → List Node
  | none => []
  | some ls => [.mk K.Paragraph [] ⟨0⟩ (parseInline K (joinLines ls))]

/-- Modelled from the spec: the line-by-line pass of the block parser (library
code outside the sources), section 4.1.  `para` is the currently open
paragraph: a blank line or a heading closes it, any other line continues it
(lazy continuation) or opens a new one. -/
def blocks (K : NodeTypes) : Option (List Bytes) → List Bytes → List Node
  | para, [] => closeParagraph K para
  | para, line :: rest =>
    match classify line with
    | .blank => closeParagraph K para ++ blocks K none rest
    | .heading level content =>
      closeParagraph K para ++
        Node.mk K.Heading [] ⟨level⟩ (parseInline K content) :: blocks K none rest
    | .text => blocks K (some (para.getD [] ++ [line])) rest

/-- Modelled from the spec: `parse(bytes) -> Node` (library code outside the
sources), section 4.1: the Document root that owns the blocks of the input. -/
def parse (K : NodeTypes) (input : Bytes) : Node :=
  .mk K.Document [] ⟨0⟩ (blocks K none (splitLines input))

/-! ## Concrete trees and runs -/

/-- A Document node with the given children. -/
def document (K : NodeTypes) (cs : List Node) : Node := .mk K.Document [] ⟨0⟩ cs

/-- A Paragraph node with the given children. -/
def paragraph (K : NodeTypes) (cs : List Node) : Node := .mk K.Paragraph [] ⟨0⟩ cs

/-- A Heading node of the given level with the given children. -/
def heading (K : NodeTypes) (level : Nat) (cs : List Node) : Node :=
  .mk K.Heading [] ⟨level⟩ cs

/-- A Text node that carries the given literal. -/
def text (K : NodeTypes) (s : String) : Node := .mk K.Text (bytesOf s) ⟨0⟩ []

/-- A concrete formatting, used for concrete runs: a node is shown by its
literal and a heading by its level. -/
def sampleFormatting : Formatting :=
  ⟨fun n => n.Literal, fun h => [UInt8.ofNat (48 + h.Level)]⟩

/-- A document with a heading and a paragraph. -/
def sampleDoc : Node :=
  document sampleTypes
    [heading sampleTypes 1 [text sampleTypes "Title"],
     paragraph sampleTypes [text sampleTypes "line one"]]

/-- The byte string is a single byte below 32, a C0 control code. -/
def isControlCode : Bytes → Bool
  | [b] => decide (b < 32)
  | _ => false

/-! ## Notions used to state the properties -/

mutual
/-- All nodes of the tree rooted at a node, in document order. -/
def nodesOf : Node → List Node
  | .mk t l h cs => .mk t l h cs :: nodesOfList cs
/-- All nodes of a sequence of sibling trees. -/
def nodesOfList : List Node → List Node
  | [] => []
  | c :: rest => nodesOf c ++ nodesOfList rest
end

/-- A leaf is a node without children. -/
def Node.isLeaf (n : Node) : Bool := n.children.isEmpty

/-- The number `N` of non-leaf nodes of a tree. -/
def nonLeafCount (root : Node) : Nat := (nodesOf root).countP (fun n => !n.isLeaf)

/-- The number `M` of leaf nodes of a tree. -/
def leafCount (root : Node) : Nat := (nodesOf root).countP (fun n => n.isLeaf)

/-- The number of Paragraph nodes of a tree. -/
def paragraphCount (K : NodeTypes) (root : Node) : Nat :=
  (nodesOf root).countP (fun n => n.type = K.Paragraph)

/-- The node is not a Paragraph without a first child. -/
def paragraphOk (K : NodeTypes) (n : Node) : Bool :=
  decide (n.type = K.Paragraph → n.isLeaf = false)

/-- Every Paragraph node of the tree has a first child. -/
def paragraphsHaveChild (K : NodeTypes) (root : Node) : Bool :=
  (nodesOf root).all (paragraphOk K)

/-- Neither fixed message of the visitor is a line of the byte string. -/
def freeOfMessages (s : Bytes) : Bool :=
  !(linesOf s).contains msgFound && !(linesOf s).contains msgLeaving

/-- If the node is a Paragraph whose first child is a Text node, the literal of
that child has no line equal to one of the fixed messages. -/
def literalOk (K : NodeTypes) (n : Node) : Bool :=
  match n.FirstChild with
  | none => true
  | some text =>
    decide (n.type = K.Paragraph → text.type = K.Text → freeOfMessages text.Literal = true)

/-- No literal that the visitor prints (the literal of a Text node that is the
first child of a Paragraph) has a line equal to one of its fixed messages. -/
def literalsClear (K : NodeTypes) (root : Node) : Bool :=
  (nodesOf root).all (literalOk K)

mutual
/-- The events of a complete walk, in the words of section 4.3: a leaf yields
an enter event; a non-leaf node yields an enter event, then the events of all
its children, then a leave event. -/
def eventsOf : Node → List (Node × Bool)
  | .mk t l h cs =>
    match cs with
    | [] => [(.mk t l h [], true)]
    | c :: rest =>
      (.mk t l h (c :: rest), true) :: (eventsOfList (c :: rest) ++
        [(.mk t l h (c :: rest), false)])
/-- The events of a complete walk over a sequence of siblings. -/
def eventsOfList : List Node → List (Node × Bool)
  | [] => []
  | c :: rest => eventsOf c ++ eventsOfList rest
end

/-- What a visitor prints along a sequence of events. -/
def printedBy (v : Visitor) : List (Node × Bool) → List Bytes
  | [] => []
  | p :: ps => (v p.1 p.2).printed ++ printedBy v ps

/-- The lines of the output written by a sequence of print calls. -/
def outputLines (printed : List Bytes) : List Bytes := splitLines (render printed)

/-- In every initial segment of the lines there are at least as many `found`
lines as `leaving` lines. -/
def neverAhead (found leaving : Bytes) (lines : List Bytes) : Prop :=
  ∀ k, (lines.take k).count leaving ≤ (lines.take k).count found


/-! ## The node-type constants -/

theorem NodeTypes.document_ne_paragraph (K : NodeTypes) : K.Document ≠ K.Paragraph := by
  have h := K.distinct
  simp only [List.nodup_cons, List.mem_cons, not_or] at h
  exact h.1.1

theorem NodeTypes.heading_ne_paragraph (K : NodeTypes) : K.Heading ≠ K.Paragraph := by
  have h := K.distinct
  simp only [List.nodup_cons, List.mem_cons, not_or] at h
  exact fun e => h.2.1.1 e.symm

theorem NodeTypes.text_ne_paragraph (K : NodeTypes) : K.Text ≠ K.Paragraph := by
  have h := K.distinct
  simp only [List.nodup_cons, List.mem_cons, not_or] at h
  exact fun e => h.2.1.2.1 e.symm

/-! ## The visitor -/

theorem visitor_status_leaf_paragraph (K : NodeTypes) (n : Node)
    (hp : n.type = K.Paragraph) (hl : n.isLeaf = true) :
    (visitor K n true).status = none := by
  cases n with
  | mk t l h cs =>
    cases cs with
    | nil => simp [visitor, Node.FirstChild, Node.children, hp]
    | cons c rest => simp [Node.isLeaf, Node.children] at hl

theorem visitor_status_ok (K : NodeTypes) (n : Node) (e : Bool)
    (h : e = true → paragraphOk K n = true) :
    (visitor K n e).status = some .GoToNext := by
  cases n with
  | mk t l hd cs =>
    unfold visitor
    by_cases hp : (Node.mk t l hd cs).type = K.Paragraph
    · cases e with
      | false => simp [hp]
      | true =>
        have hk := h rfl
        simp only [paragraphOk, decide_eq_true_eq] at hk
        have hl := hk hp
        cases cs with
        | nil => simp [Node.isLeaf, Node.children] at hl
        | cons c rest =>
          simp only [hp, if_true, Node.FirstChild, Node.children, List.head?]
          split <;> rfl
    · simp [hp]

theorem visitor_status_leave (K : NodeTypes) (n : Node) :
    (visitor K n false).status = some .GoToNext :=
  visitor_status_ok K n false (by simp)

theorem paragraphOk_of_children (K : NodeTypes) (t : NodeType) (l : Bytes) (h : HeadingData)
    (c : Node) (rest : List Node) : paragraphOk K (.mk t l h (c :: rest)) = true := by
  simp [paragraphOk, Node.isLeaf, Node.children]

/-! ## The walker -/

theorem printedBy_append (v : Visitor) (a b : List (Node × Bool)) :
    printedBy v (a ++ b) = printedBy v a ++ printedBy v b := by
  induction a with
  | nil => rfl
  | cons p ps ih => simp [printedBy, ih]

theorem visit_of_next (v : Visitor) (n : Node) (e : Bool)
    (h : (v n e).status = some .GoToNext) :
    visit v n e = ⟨[(n, e)], (v n e).printed, .completed⟩ := by
  simp [visit, h]

mutual
theorem walkNode_complete (K : NodeTypes) : ∀ n : Node, (nodesOf n).all (paragraphOk K) = true →
    walkNode (visitor K) n =
      ⟨eventsOf n, printedBy (visitor K) (eventsOf n), .completed⟩
  | .mk t l h [], hok => by
    have h0 : paragraphOk K (.mk t l h []) = true := by
      simp [nodesOf, nodesOfList] at hok; exact hok
    have hs := visitor_status_ok K (.mk t l h []) true (fun _ => h0)
    simp [walkNode, eventsOf, printedBy, visit_of_next _ _ _ hs]
  | .mk t l h (c :: rest), hok => by
    have hk : (nodesOfList (c :: rest)).all (paragraphOk K) = true := by
      rw [nodesOf] at hok
      simp only [List.all_cons, Bool.and_eq_true] at hok
      exact hok.2
    have ih := walkList_complete K (c :: rest) hk
    have h1 := visitor_status_ok K (.mk t l h (c :: rest)) true
      (fun _ => paragraphOk_of_children K t l h c rest)
    have h2 := visitor_status_leave K (.mk t l h (c :: rest))
    rw [walkNode, visit_of_next _ _ _ h1, visit_of_next _ _ _ h2, h1, ih]
    simp [Trace.seq, eventsOf, printedBy, printedBy_append]
theorem walkList_complete (K : NodeTypes) : ∀ cs : List Node,
    (nodesOfList cs).all (paragraphOk K) = true →
    walkList (visitor K) cs =
      ⟨eventsOfList cs, printedBy (visitor K) (eventsOfList cs), .completed⟩
  | [], _ => by simp [walkList, eventsOfList, printedBy, Trace.empty]
  | c :: rest, hok => by
    rw [nodesOfList] at hok
    simp only [List.all_append, Bool.and_eq_true] at hok
    have h1 := walkNode_complete K c hok.1
    have h2 := walkList_complete K rest hok.2
    rw [walkList, h1, h2]
    simp [Trace.seq, eventsOfList, printedBy_append]
end


theorem visit_of_none (v : Visitor) (n : Node) (e : Bool) (h : (v n e).status = none) :
    (visit v n e).flow = .panicked := by
  simp [visit, h]

theorem Trace.seq_flow_of_not_completed (a b : Trace) (h : a.flow ≠ .completed) :
    a.seq b = a := by
  unfold Trace.seq
  split
  · contradiction
  · rfl

mutual
theorem walkNode_panics (K : NodeTypes) : ∀ n : Node, (nodesOf n).all (paragraphOk K) = false →
    (walkNode (visitor K) n).flow = .panicked
  | .mk t l h [], hbad => by
    have h0 : paragraphOk K (.mk t l h []) = false := by
      simpa [nodesOf, nodesOfList] using hbad
    have hp : (Node.mk t l h []).type = K.Paragraph := by
      simp only [paragraphOk, decide_eq_false_iff_not, Classical.not_imp] at h0
      exact h0.1
    rw [walkNode]
    exact visit_of_none _ _ _ (visitor_status_leaf_paragraph K _ hp rfl)
  | .mk t l h (c :: rest), hbad => by
    have hk : (nodesOfList (c :: rest)).all (paragraphOk K) = false := by
      rw [nodesOf] at hbad
      simpa [paragraphOk_of_children] using hbad
    have ih := walkList_panics K (c :: rest) hk
    have h1 := visitor_status_ok K (.mk t l h (c :: rest)) true
      (fun _ => paragraphOk_of_children K t l h c rest)
    rw [walkNode, visit_of_next _ _ _ h1, h1]
    have hne : (walkList (visitor K) (c :: rest)).flow ≠ .completed := by
      rw [ih]; decide
    simp [Trace.seq, Trace.seq_flow_of_not_completed _ _ hne, ih]
theorem walkList_panics (K : NodeTypes) : ∀ cs : List Node,
    (nodesOfList cs).all (paragraphOk K) = false →
    (walkList (visitor K) cs).flow = .panicked
  | [], hbad => by simp [nodesOfList] at hbad
  | c :: rest, hbad => by
    rw [nodesOfList, List.all_append] at hbad
    rw [walkList]
    cases hc : (nodesOf c).all (paragraphOk K) with
    | false =>
      have h1 := walkNode_panics K c hc
      have hne : (walkNode (visitor K) c).flow ≠ .completed := by rw [h1]; decide
      rw [Trace.seq_flow_of_not_completed _ _ hne, h1]
    | true =>
      rw [hc, Bool.true_and] at hbad
      have h1 := walkNode_complete K c hc
      have h2 := walkList_panics K rest hbad
      rw [h1]
      simp [Trace.seq, h2]
end

/-- The walk started in `main` runs to completion exactly when every Paragraph
node has a first child, and otherwise ends in a nil dereference. -/
theorem walk_flow (K : NodeTypes) (root : Node) :
    (walk root (visitor K)).flow =
      if paragraphsHaveChild K root then .completed else .panicked := by
  unfold walk paragraphsHaveChild
  cases h : (nodesOf root).all (paragraphOk K) with
  | true => rw [walkNode_complete K root h]; rfl
  | false => rw [walkNode_panics K root h]; rfl

/-! ## Counting events -/

mutual
theorem eventsOf_length : ∀ n : Node,
    (eventsOf n).length =
      2 * (nodesOf n).countP (fun m => !m.isLeaf) + (nodesOf n).countP (fun m => m.isLeaf)
  | .mk t l h [] => by
    simp [eventsOf, nodesOf, nodesOfList, Node.isLeaf, Node.children]
  | .mk t l h (c :: rest) => by
    have ih := eventsOfList_length (c :: rest)
    rw [eventsOf, nodesOf]
    simp only [List.length_cons, List.length_append, List.length_nil, ih]
    simp [List.countP_cons, Node.isLeaf, Node.children]
    omega
theorem eventsOfList_length : ∀ cs : List Node,
    (eventsOfList cs).length =
      2 * (nodesOfList cs).countP (fun m => !m.isLeaf) +
        (nodesOfList cs).countP (fun m => m.isLeaf)
  | [] => by simp [eventsOfList, nodesOfList]
  | c :: rest => by
    have h1 := eventsOf_length c
    have h2 := eventsOfList_length rest
    rw [eventsOfList, nodesOfList]
    simp only [List.length_append, List.countP_append, h1, h2]
    omega
end

mutual
theorem enter_mem_eventsOf : ∀ (n m : Node), m ∈ nodesOf n → (m, true) ∈ eventsOf n
  | .mk t l h [], m, hm => by
    simp [nodesOf, nodesOfList] at hm
    simp [eventsOf, hm]
  | .mk t l h (c :: rest), m, hm => by
    rw [nodesOf, List.mem_cons] at hm
    rw [eventsOf]
    rcases hm with hm | hm
    · simp [hm]
    · have := enter_mem_eventsOfList (c :: rest) m hm
      simp [this]
theorem enter_mem_eventsOfList : ∀ (cs : List Node) (m : Node),
    m ∈ nodesOfList cs → (m, true) ∈ eventsOfList cs
  | [], m, hm => by simp [nodesOfList] at hm
  | c :: rest, m, hm => by
    rw [nodesOfList, List.mem_append] at hm
    rw [eventsOfList, List.mem_append]
    rcases hm with hm | hm
    · exact Or.inl (enter_mem_eventsOf c m hm)
    · exact Or.inr (enter_mem_eventsOfList rest m hm)
end


/-! ## Lines of the output -/

theorem linesOf_ne_nil (s : Bytes) : linesOf s ≠ [] := by
  unfold linesOf
  induction s with
  | nil => simp [splitLines]
  | cons b bs ih =>
    simp only [List.cons_append, splitLines]
    split
    · simp
    · split <;> simp

theorem splitLines_append_newline (s rest : Bytes) :
    splitLines (s ++ 10 :: rest) = linesOf s ++ splitLines rest := by
  induction s with
  | nil => simp [linesOf, splitLines]
  | cons b bs ih =>
    have hne := linesOf_ne_nil bs
    simp only [linesOf] at hne ih ⊢
    simp only [List.cons_append, splitLines, ih]
    by_cases hb : b = 10
    · simp [hb, ih]
    · simp only [hb, if_false]
      cases hl : splitLines (bs ++ [10]) with
      | nil => exact absurd hl hne
      | cons x xs =>
        have ih2 : splitLines (bs.append (10 :: rest)) = x :: xs ++ splitLines rest := by
          rw [← hl]; exact ih
        rw [ih2]; rfl

theorem outputLines_nil : outputLines [] = [] := by
  simp [outputLines, render, splitLines]

theorem outputLines_cons (s : Bytes) (rest : List Bytes) :
    outputLines (s :: rest) = linesOf s ++ outputLines rest := by
  simp [outputLines, render, splitLines_append_newline]

theorem outputLines_append (a b : List Bytes) :
    outputLines (a ++ b) = outputLines a ++ outputLines b := by
  induction a with
  | nil => simp [outputLines_nil]
  | cons s rest ih => simp [outputLines_cons, ih]

theorem linesOf_msgFound : linesOf msgFound = [msgFound] := by decide

theorem linesOf_msgLeaving : linesOf msgLeaving = [msgLeaving] := by decide

theorem msgFound_ne_msgLeaving : msgFound ≠ msgLeaving := by decide

/-! ## Nesting of the two messages -/

theorem neverAhead_nil (f g : Bytes) : neverAhead f g [] := by
  intro k; simp

theorem neverAhead_append (f g : Bytes) (A B : List Bytes)
    (hA : neverAhead f g A) (hB : neverAhead f g B) : neverAhead f g (A ++ B) := by
  intro k
  rw [List.take_append_eq_append_take, List.count_append, List.count_append]
  exact Nat.add_le_add (hA k) (hB _)

theorem count_take_of_not_mem (x : Bytes) (N : List Bytes) (k : Nat) (h : x ∉ N) :
    (N.take k).count x = 0 :=
  List.count_eq_zero_of_not_mem (fun hm => h (List.mem_of_mem_take hm))

theorem neverAhead_wrap (f g : Bytes) (N X : List Bytes) (hfg : f ≠ g)
    (hf : f ∉ N) (hg : g ∉ N) (hX : neverAhead f g X) :
    neverAhead f g ([f] ++ N ++ X ++ [g]) := by
  intro k
  cases k with
  | zero => simp
  | succ j =>
    have h1 : ([f] ++ N ++ X ++ [g]).take (j + 1) =
        f :: ((N.take j ++ X.take (j - N.length)) ++
          [g].take (j - N.length - X.length)) := by
      simp [List.take_append_eq_append_take, List.append_assoc]
    rw [h1]
    have hgf : (f == g) = false := by simpa using hfg
    have hgg : ([g].take (j - N.length - X.length)).count g ≤ 1 :=
      (List.count_le_length _ _).trans (by rw [List.length_take]; exact Nat.min_le_right _ _)
    have hx := hX (j - N.length)
    simp only [List.count_cons, List.count_append, hgf, beq_self_eq_true, if_true,
      count_take_of_not_mem f N j hf, count_take_of_not_mem g N j hg]
    simp only [Bool.false_eq_true, if_false]
    omega

theorem count_wrap_found (f g : Bytes) (N X : List Bytes) (hfg : f ≠ g) (hf : f ∉ N) :
    ([f] ++ N ++ X ++ [g]).count f = X.count f + 1 := by
  have hgf : (g == f) = false := by simpa using fun h : g = f => hfg h.symm
  simp [List.count_append, List.count_cons, List.count_eq_zero_of_not_mem hf, hgf]

theorem count_wrap_leaving (f g : Bytes) (N X : List Bytes) (hfg : f ≠ g) (hg : g ∉ N) :
    ([f] ++ N ++ X ++ [g]).count g = X.count g + 1 := by
  have hgf : (f == g) = false := by simpa using hfg
  simp [List.count_append, List.count_cons, List.count_eq_zero_of_not_mem hg, hgf]


/-! ## What the visitor prints -/

theorem visitor_printed_other (K : NodeTypes) (n : Node) (e : Bool)
    (h : n.type ≠ K.Paragraph) : (visitor K n e).printed = [] := by
  simp [visitor, h]

theorem visitor_printed_leave (K : NodeTypes) (n : Node) (h : n.type = K.Paragraph) :
    (visitor K n false).printed = [msgLeaving] := by
  simp [visitor, h]

theorem visitor_printed_enter (K : NodeTypes) (n text : Node) (h : n.type = K.Paragraph)
    (hc : n.FirstChild = some text) :
    (visitor K n true).printed =
      msgFound :: (if text.type = K.Text then [text.Literal] else []) := by
  unfold visitor
  simp only [h, if_true, hc]
  split <;> rfl

theorem freeOfMessages_iff (s : Bytes) :
    freeOfMessages s = true ↔ msgFound ∉ linesOf s ∧ msgLeaving ∉ linesOf s := by
  simp [freeOfMessages]

/-- The lines printed along the complete walk of a tree. -/
theorem lines_of_node_events (K : NodeTypes) (t : NodeType) (l : Bytes) (h : HeadingData)
    (c : Node) (rest : List Node) :
    outputLines (printedBy (visitor K) (eventsOf (.mk t l h (c :: rest)))) =
      outputLines (visitor K (.mk t l h (c :: rest)) true).printed ++
        outputLines (printedBy (visitor K) (eventsOfList (c :: rest))) ++
        outputLines (visitor K (.mk t l h (c :: rest)) false).printed := by
  rw [eventsOf]
  simp [printedBy, printedBy_append, outputLines_append]

mutual
theorem lines_of_walk (K : NodeTypes) : ∀ n : Node,
    (nodesOf n).all (paragraphOk K) = true → (nodesOf n).all (literalOk K) = true →
    (outputLines (printedBy (visitor K) (eventsOf n))).count msgFound =
        (nodesOf n).countP (fun m => m.type = K.Paragraph) ∧
      (outputLines (printedBy (visitor K) (eventsOf n))).count msgLeaving =
        (nodesOf n).countP (fun m => m.type = K.Paragraph) ∧
      neverAhead msgFound msgLeaving (outputLines (printedBy (visitor K) (eventsOf n)))
  | .mk t l h [], hok, _ => by
    have h0 : paragraphOk K (.mk t l h []) = true := by
      simpa [nodesOf, nodesOfList] using hok
    have hp : (Node.mk t l h []).type ≠ K.Paragraph := by
      intro hp
      simp [paragraphOk, hp, Node.isLeaf, Node.children] at h0
    have hq : ¬ t = K.Paragraph := hp
    simp [eventsOf, printedBy, visitor_printed_other K _ _ hp, outputLines_nil, nodesOf,
      nodesOfList, Node.type, hq, neverAhead_nil]
  | .mk t l h (c :: rest), hok, hcl => by
    rw [nodesOf, List.all_cons, Bool.and_eq_true] at hok hcl
    obtain ⟨ih1, ih2, ih3⟩ := lines_of_walkList K (c :: rest) hok.2 hcl.2
    rw [lines_of_node_events, nodesOf, List.countP_cons]
    by_cases hp : (Node.mk t l h (c :: rest)).type = K.Paragraph
    · have hc : (Node.mk t l h (c :: rest)).FirstChild = some c := rfl
      rw [visitor_printed_enter K _ c hp hc, visitor_printed_leave K _ hp]
      have hlit := hcl.1
      simp only [literalOk, hc, decide_eq_true_eq] at hlit
      have hN : msgFound ∉ outputLines (if c.type = K.Text then [c.Literal] else []) ∧
          msgLeaving ∉ outputLines (if c.type = K.Text then [c.Literal] else []) := by
        by_cases ht : c.type = K.Text
        · have := (freeOfMessages_iff _).1 (hlit hp ht)
          simpa [ht, outputLines_cons, outputLines_nil] using this
        · simp [ht, outputLines_nil]
      have hshape : outputLines (msgFound :: (if c.type = K.Text then [c.Literal] else [])) ++
            outputLines (printedBy (visitor K) (eventsOfList (c :: rest))) ++
            outputLines [msgLeaving] =
          [msgFound] ++ outputLines (if c.type = K.Text then [c.Literal] else []) ++
            outputLines (printedBy (visitor K) (eventsOfList (c :: rest))) ++ [msgLeaving] := by
        simp [outputLines_cons, outputLines_nil, linesOf_msgFound, linesOf_msgLeaving]
      rw [hshape]
      refine ⟨?_, ?_, ?_⟩
      · rw [count_wrap_found _ _ _ _ msgFound_ne_msgLeaving hN.1, ih1]
        simp [hp]
      · rw [count_wrap_leaving _ _ _ _ msgFound_ne_msgLeaving hN.2, ih2]
        simp [hp]
      · exact neverAhead_wrap _ _ _ _ msgFound_ne_msgLeaving hN.1 hN.2 ih3
    · rw [visitor_printed_other K _ true hp, visitor_printed_other K _ false hp]
      simp only [outputLines_nil, List.nil_append, List.append_nil]
      refine ⟨?_, ?_, ih3⟩
      · rw [ih1]; simp [hp]
      · rw [ih2]; simp [hp]
theorem lines_of_walkList (K : NodeTypes) : ∀ cs : List Node,
    (nodesOfList cs).all (paragraphOk K) = true → (nodesOfList cs).all (literalOk K) = true →
    (outputLines (printedBy (visitor K) (eventsOfList cs))).count msgFound =
        (nodesOfList cs).countP (fun m => m.type = K.Paragraph) ∧
      (outputLines (printedBy (visitor K) (eventsOfList cs))).count msgLeaving =
        (nodesOfList cs).countP (fun m => m.type = K.Paragraph) ∧
      neverAhead msgFound msgLeaving (outputLines (printedBy (visitor K) (eventsOfList cs)))
  | [], _, _ => by
    simp [eventsOfList, printedBy, outputLines_nil, nodesOfList, neverAhead_nil]
  | c :: rest, hok, hcl => by
    rw [nodesOfList, List.all_append, Bool.and_eq_true] at hok hcl
    obtain ⟨a1, a2, a3⟩ := lines_of_walk K c hok.1 hcl.1
    obtain ⟨b1, b2, b3⟩ := lines_of_walkList K rest hok.2 hcl.2
    rw [eventsOfList, printedBy_append, outputLines_append, nodesOfList, List.countP_append,
      List.count_append, List.count_append, a1, a2, b1, b2]
    exact ⟨rfl, rfl, neverAhead_append _ _ _ _ a3 b3⟩
end


/-! ## The claims -/

/-- C1, as stated, fails: in the document that consists of one Paragraph
without children there are one non-leaf and one leaf node, so `2N + M = 3`, but
the visitor is invoked twice only: its second call dereferences the nil first
child of the Paragraph and the walk ends there. -/
theorem walk_invocations_counterexample :
    (walk (document sampleTypes [paragraph sampleTypes []])
        (visitor sampleTypes)).events.length = 2 ∧
      2 * nonLeafCount (document sampleTypes [paragraph sampleTypes []]) +
        leafCount (document sampleTypes [paragraph sampleTypes []]) = 3 ∧
      (walk (document sampleTypes [paragraph sampleTypes []])
        (visitor sampleTypes)).flow = .panicked := by
  decide

/-- C1, amended: for every document tree in which every Paragraph node has a
first child, the walk started in `main` runs to completion and invokes the
visitor exactly `2N + M` times, `N` the number of non-leaf and `M` the number
of leaf nodes: one enter and one leave call per non-leaf node and a single enter
call per leaf node. -/
theorem walk_invocations (K : NodeTypes) (root : Node)
    (h : paragraphsHaveChild K root = true) :
    (walk root (visitor K)).events = eventsOf root ∧
      (walk root (visitor K)).events.length = 2 * nonLeafCount root + leafCount root ∧
      (walk root (visitor K)).flow = .completed := by
  have hw := walkNode_complete K root h
  unfold walk
  rw [hw]
  exact ⟨rfl, eventsOf_length root, rfl⟩

/-- C1, amended, at a concrete document: a heading and a paragraph, each with
one text child, give `2 * 3 + 2 = 8` visitor invocations. -/
theorem walk_invocations_witness :
    paragraphsHaveChild sampleTypes sampleDoc = true ∧
      (walk sampleDoc (visitor sampleTypes)).events.length = 8 ∧
      2 * nonLeafCount sampleDoc + leafCount sampleDoc = 8 :=
  ⟨by decide,
    (walk_invocations sampleTypes sampleDoc (by decide)).2.1.trans (by decide),
    by decide⟩


/-- C2, as stated, fails in two ways.  A Paragraph whose text is the line
"I found a paragraph" makes that line appear twice in the output for a single
Paragraph and a single "leaving" line; and a Paragraph without children gets
its "found" line but no leave event, because the visitor dereferences the nil
first child. -/
theorem paragraph_lines_counterexample :
    ((outputLines (walk (document sampleTypes
          [paragraph sampleTypes [text sampleTypes "I found a paragraph"]])
        (visitor sampleTypes)).printed).count msgFound = 2 ∧
      (outputLines (walk (document sampleTypes
          [paragraph sampleTypes [text sampleTypes "I found a paragraph"]])
        (visitor sampleTypes)).printed).count msgLeaving = 1 ∧
      paragraphCount sampleTypes (document sampleTypes
          [paragraph sampleTypes [text sampleTypes "I found a paragraph"]]) = 1) ∧
    ((outputLines (walk (document sampleTypes [paragraph sampleTypes []])
        (visitor sampleTypes)).printed).count msgFound = 1 ∧
      (outputLines (walk (document sampleTypes [paragraph sampleTypes []])
        (visitor sampleTypes)).printed).count msgLeaving = 0) := by
  decide

/-- C2, amended: for every document tree in which every Paragraph node has a
first child and no literal printed by the visitor has a line equal to one of
the two fixed messages, the walk delivers to every non-leaf node, so to every
Paragraph, an enter event and, after the events of all its descendants, a leave
event; in the output of the walk the number of lines "I found a paragraph"
equals the number of lines "I'm leaving the paragraph" equals the number of
Paragraph nodes, and every initial segment of the output has at least as many
"found" lines as "leaving" lines. -/
theorem paragraph_lines (K : NodeTypes) (root : Node)
    (h : paragraphsHaveChild K root = true) (hc : literalsClear K root = true) :
    (walk root (visitor K)).events = eventsOf root ∧
      (outputLines (walk root (visitor K)).printed).count msgFound =
        paragraphCount K root ∧
      (outputLines (walk root (visitor K)).printed).count msgLeaving =
        paragraphCount K root ∧
      neverAhead msgFound msgLeaving (outputLines (walk root (visitor K)).printed) := by
  have hw := walkNode_complete K root h
  obtain ⟨h1, h2, h3⟩ := lines_of_walk K root h hc
  unfold walk paragraphCount
  rw [hw]
  exact ⟨rfl, h1, h2, h3⟩

/-- C2, amended, at a concrete document with one Paragraph: one "found" line,
one "leaving" line. -/
theorem paragraph_lines_witness :
    paragraphsHaveChild sampleTypes sampleDoc = true ∧
      literalsClear sampleTypes sampleDoc = true ∧
      (outputLines (walk sampleDoc (visitor sampleTypes)).printed).count msgFound = 1 ∧
      (outputLines (walk sampleDoc (visitor sampleTypes)).printed).count msgLeaving = 1 :=
  ⟨by decide, by decide,
    (paragraph_lines sampleTypes sampleDoc (by decide) (by decide)).2.1.trans (by decide),
    (paragraph_lines sampleTypes sampleDoc (by decide) (by decide)).2.2.1.trans (by decide)⟩


/-- C9, as stated, fails: entering a Paragraph without children, the visitor
does not return the continue status (it dereferences the nil first child); in a
document whose first Paragraph has no children the walk is cut short after two
invocations and the second Paragraph never receives its enter event. -/
theorem visitor_continues_counterexample :
    (visitor sampleTypes (paragraph sampleTypes []) true).status ≠ some .GoToNext ∧
      (walk (document sampleTypes
          [paragraph sampleTypes [], paragraph sampleTypes [text sampleTypes "x"]])
        (visitor sampleTypes)).events =
        [(document sampleTypes
            [paragraph sampleTypes [], paragraph sampleTypes [text sampleTypes "x"]], true),
          (paragraph sampleTypes [], true)] ∧
      (paragraph sampleTypes [text sampleTypes "x"], true) ∉
        (walk (document sampleTypes
          [paragraph sampleTypes [], paragraph sampleTypes [text sampleTypes "x"]])
        (visitor sampleTypes)).events := by
  have he : (walk (document sampleTypes
          [paragraph sampleTypes [], paragraph sampleTypes [text sampleTypes "x"]])
        (visitor sampleTypes)).events =
        [(document sampleTypes
            [paragraph sampleTypes [], paragraph sampleTypes [text sampleTypes "x"]], true),
          (paragraph sampleTypes [], true)] := by rfl
  refine ⟨by decide, he, ?_⟩
  rw [he]
  simp [document, paragraph, sampleTypes]

/-- C9, amended: for every node and both values of the entering flag the
visitor never returns skipChildren and never stop, and it returns the continue
status (GoToNext) unless it is entering a Paragraph without a first child, where
it returns nothing; therefore, in every tree in which every Paragraph node has a
first child, the walk is never cut short and every node of the tree receives its
enter event. -/
theorem visitor_continues (K : NodeTypes) (root : Node)
    (h : paragraphsHaveChild K root = true) :
    (∀ (n : Node) (e : Bool),
        (visitor K n e).status ≠ some .skipChildren ∧
        (visitor K n e).status ≠ some .stop ∧
        ((visitor K n e).status = some .GoToNext ↔
          ¬ (n.type = K.Paragraph ∧ e = true ∧ n.FirstChild = none))) ∧
      (walk root (visitor K)).flow = .completed ∧
      ∀ m ∈ nodesOf root, (m, true) ∈ (walk root (visitor K)).events := by
  refine ⟨?_, ?_, ?_⟩
  · intro n e
    by_cases hbad : n.type = K.Paragraph ∧ e = true ∧ n.FirstChild = none
    · obtain ⟨hp, he, hn⟩ := hbad
      subst he
      have hs : (visitor K n true).status = none := by
        simp [visitor, hp, hn]
      simp [hs, hp, hn]
    · have hok : e = true → paragraphOk K n = true := by
        intro he
        simp only [paragraphOk, decide_eq_true_eq]
        intro hp
        cases n with
        | mk t l hd cs =>
          cases cs with
          | nil => exact absurd ⟨hp, he, rfl⟩ hbad
          | cons c rest => rfl
      have hs := visitor_status_ok K n e hok
      rw [hs]
      simp [hbad]
  · unfold walk
    rw [walkNode_complete K root h]
  · intro m hm
    unfold walk
    rw [walkNode_complete K root h]
    exact enter_mem_eventsOf root m hm

/-- C9, amended, at a concrete document: the walk completes and the paragraph
receives its enter event. -/
theorem visitor_continues_witness :
    paragraphsHaveChild sampleTypes sampleDoc = true ∧
      (walk sampleDoc (visitor sampleTypes)).flow = .completed ∧
      (paragraph sampleTypes [text sampleTypes "line one"], true) ∈
        (walk sampleDoc (visitor sampleTypes)).events :=
  ⟨by decide, (visitor_continues sampleTypes sampleDoc (by decide)).2.1,
    (visitor_continues sampleTypes sampleDoc (by decide)).2.2 _
      (by simp [sampleDoc, document, heading, paragraph, text, nodesOf, nodesOfList])⟩


/-! ## The string conversion of a node type -/

theorem goString_length_le (i : Int) : (goString i).length ≤ 4 := by
  unfold goString
  split <;> simp [Char.utf8Size_le_four]

theorem goString_control (c : Fin 32) :
    goString (c.val : Int) = [UInt8.ofNat c.val] ∧
      isControlCode (goString (c.val : Int)) = true := by
  revert c; decide

theorem goString_char (i : Int) (h : (0 ≤ i ∧ i < 0xD800) ∨ (0xE000 ≤ i ∧ i ≤ 0x10FFFF)) :
    goString i = String.utf8EncodeChar (Char.ofNat i.toNat) ∧
      (Char.ofNat i.toNat).toNat = i.toNat := by
  refine ⟨by simp [goString, h], ?_⟩
  have hv : i.toNat.isValidChar := by
    unfold Nat.isValidChar
    omega
  simp only [Char.ofNat, hv, dite_true, Char.ofNatAux, Char.toNat]
  rfl


/-- C10: whenever the Document has a first child, the first thing `main` prints
is the line "Type: " followed by the string conversion of the child's integer
node-type value: at most four bytes, the UTF-8 encoding of the single character
whose code point is the tag when the tag is a code point, a one-byte control
code when the tag is below 32, and never the text "Type: Heading". -/
theorem first_line_is_type_conversion (K : NodeTypes) (F : Formatting) (root child : Node)
    (h : root.FirstChild = some child) :
    (mainOn K F root).printed.head? = some (bytesOf "Type: " ++ goString child.type) ∧
      (bytesOf "Type: " ++ goString child.type ++ [10]) <+: (mainOn K F root).stdout ∧
      ((0 ≤ child.type ∧ child.type < 0xD800) ∨ (0xE000 ≤ child.type ∧ child.type ≤ 0x10FFFF) →
        goString child.type = String.utf8EncodeChar (Char.ofNat child.type.toNat) ∧
          (Char.ofNat child.type.toNat).toNat = child.type.toNat) ∧
      (∀ c : Fin 32, child.type = (c.val : Int) →
        goString child.type = [UInt8.ofNat c.val] ∧
          isControlCode (goString child.type) = true) ∧
      bytesOf "Type: " ++ goString child.type ≠ bytesOf "Type: Heading" := by
  have hp : (mainOn K F root).printed.head? =
      some (bytesOf "Type: " ++ goString child.type) := by
    simp [mainOn, h]
  refine ⟨hp, ?_, goString_char child.type, ?_, ?_⟩
  · unfold Outcome.stdout
    cases hl : (mainOn K F root).printed with
    | nil => simp [hl] at hp
    | cons s rest =>
      rw [hl] at hp
      simp only [List.head?_cons, Option.some.injEq] at hp
      subst hp
      exact ⟨render rest, by simp [render]⟩
  · intro c hc
    rw [hc]
    exact goString_control c
  · intro he
    have hlen := congrArg List.length he
    have h4 := goString_length_le child.type
    have h6 : (bytesOf "Type: ").length = 6 := by decide
    have h13 : (bytesOf "Type: Heading").length = 13 := by decide
    rw [List.length_append, h6, h13] at hlen
    omega

/-- C10 at a concrete document whose first child is a Heading with tag 5: the
first line is "Type: " followed by the control code with code point 5. -/
theorem first_line_is_type_conversion_witness :
    sampleDoc.FirstChild = some (heading sampleTypes 1 [text sampleTypes "Title"]) ∧
      (mainOn sampleTypes sampleFormatting sampleDoc).printed.head? =
        some (bytesOf "Type: " ++ [5]) :=
  ⟨rfl, (first_line_is_type_conversion sampleTypes sampleFormatting sampleDoc
    (heading sampleTypes 1 [text sampleTypes "Title"]) rfl).1.trans (by decide)⟩

/-- C7: for every Paragraph node that has a first child, on the enter event the
visitor prints "I found a paragraph" and then the first child's literal if and
only if that child is of kind Text; on the leave event it prints only "I'm
leaving the paragraph"; for a node of any other kind it prints nothing on
either event. -/
theorem visitor_output (K : NodeTypes) (node first : Node)
    (hp : node.type = K.Paragraph) (hc : node.FirstChild = some first) :
    (visitor K node true).printed =
        msgFound :: (if first.type = K.Text then [first.Literal] else []) ∧
      (first.type = K.Text ↔ (visitor K node true).printed = [msgFound, first.Literal]) ∧
      (visitor K node false).printed = [msgLeaving] ∧
      ∀ (other : Node) (e : Bool), other.type ≠ K.Paragraph →
        (visitor K other e).printed = [] := by
  have h1 := visitor_printed_enter K node first hp hc
  refine ⟨h1, ?_, visitor_printed_leave K node hp,
    fun other e ho => visitor_printed_other K other e ho⟩
  rw [h1]
  by_cases ht : first.type = K.Text <;> simp [ht]

/-- C7 at a concrete Paragraph with a Text child and at a concrete Heading. -/
theorem visitor_output_witness :
    (paragraph sampleTypes [text sampleTypes "line one"]).type = sampleTypes.Paragraph ∧
      (visitor sampleTypes (paragraph sampleTypes [text sampleTypes "line one"]) true).printed =
        [msgFound, bytesOf "line one"] ∧
      (visitor sampleTypes (paragraph sampleTypes [text sampleTypes "line one"])
        false).printed = [msgLeaving] ∧
      (visitor sampleTypes (heading sampleTypes 1 []) true).printed = [] :=
  ⟨rfl,
    (visitor_output sampleTypes (paragraph sampleTypes [text sampleTypes "line one"])
      (text sampleTypes "line one") rfl rfl).1.trans (by decide),
    (visitor_output sampleTypes (paragraph sampleTypes [text sampleTypes "line one"])
      (text sampleTypes "line one") rfl rfl).2.2.1,
    (visitor_output sampleTypes (paragraph sampleTypes [text sampleTypes "line one"])
      (text sampleTypes "line one") rfl rfl).2.2.2 _ true (by decide)⟩

/-- C8: `main` runs to completion without dereferencing a nil node if and only
if the Document has a first child and every Paragraph node has a first child;
for a Document without children, such as the one parsed from the empty input,
`main` fails at the first access to `heading.Type`, before anything is
printed. -/
theorem main_completes_iff (K : NodeTypes) (F : Formatting) (root : Node) :
    ((mainOn K F root).failure = none ↔
        (root.FirstChild ≠ none ∧ paragraphsHaveChild K root = true)) ∧
      ((mainOn K F root).failure = none ∨
        (mainOn K F root).failure = some .nilDereference) ∧
      (∀ (t : NodeType) (l : Bytes) (hd : HeadingData),
        mainOn K F (.mk t l hd []) = ⟨[], some .nilDereference⟩) ∧
      ∀ unreadable : Bool,
        main K F (parse K) ⟨[], unreadable⟩ = ⟨[], some .nilDereference⟩ := by
  refine ⟨?_, ?_, fun t l hd => rfl, fun u => rfl⟩
  · cases hc : root.FirstChild with
    | none => simp [mainOn, hc]
    | some child =>
      have hf := walk_flow K root
      by_cases hok : paragraphsHaveChild K root = true
      · simp [mainOn, hc, hf, hok]
      · simp [mainOn, hc, hf, hok]
  · cases hc : root.FirstChild with
    | none => simp [mainOn, hc]
    | some child =>
      have hf := walk_flow K root
      by_cases hok : paragraphsHaveChild K root = true
      · simp [mainOn, hc, hf, hok]
      · simp [mainOn, hc, hf, hok]


/-- C3, as stated, fails: when the read of `test.md` fails, `main` reports no
"input unreadable" failure and goes on exactly as after a successful read of the
same bytes.  With no bytes it parses the empty input and fails with a nil
dereference; with the bytes "# Title" delivered next to the error it prints its
diagnostics about the parsed heading and ends normally. -/
theorem read_failure_counterexample :
    main sampleTypes sampleFormatting (parse sampleTypes) ⟨[], true⟩ =
        main sampleTypes sampleFormatting (parse sampleTypes) ⟨[], false⟩ ∧
      (main sampleTypes sampleFormatting (parse sampleTypes) ⟨[], true⟩).failure =
        some .nilDereference ∧
      (main sampleTypes sampleFormatting (parse sampleTypes)
        ⟨bytesOf "# Title", true⟩).failure = none ∧
      (main sampleTypes sampleFormatting (parse sampleTypes)
        ⟨bytesOf "# Title", true⟩).printed.take 2 =
        [bytesOf "Type: " ++ [5], bytesOf "It is a heading"] := by
  refine ⟨rfl, by decide, by decide, by decide⟩

/-- C3, amended: when `test.md` is missing or unreadable, `main` discards the
failure reported by the file reader: it never ends with the "input unreadable"
failure and it parses and inspects whatever bytes the reader returned exactly as
if the read had succeeded. -/
theorem read_failure_discarded (K : NodeTypes) (F : Formatting) (parser : Bytes → Node)
    (data : Bytes) :
    main K F parser ⟨data, true⟩ = main K F parser ⟨data, false⟩ ∧
      main K F parser ⟨data, true⟩ = mainOn K F (parser data) ∧
      (main K F parser ⟨data, true⟩).failure ≠ some .inputUnreadable := by
  refine ⟨rfl, rfl, ?_⟩
  show (mainOn K F (parser data)).failure ≠ some .inputUnreadable
  unfold mainOn
  split
  · simp
  · dsimp only
    split <;> simp

/-- C4: for the input "# Title" the first child of the parsed Document is a
Heading of level 1 whose only child is a Text node with literal "Title", so
`main` takes the branch of the heading test and prints "It is a heading" as its
second line. -/
theorem heading_title (K : NodeTypes) (F : Formatting) :
    parse K (bytesOf "# Title") =
        document K [heading K 1 [text K "Title"]] ∧
      (parse K (bytesOf "# Title")).FirstChild = some (heading K 1 [text K "Title"]) ∧
      (heading K 1 [text K "Title"]).type = K.Heading ∧
      (heading K 1 [text K "Title"]).HeadingData.Level = 1 ∧
      (main K F (parse K) ⟨bytesOf "# Title", false⟩).printed.take 2 =
        [bytesOf "Type: " ++ goString K.Heading, bytesOf "It is a heading"] := by
  have hparse : parse K (bytesOf "# Title") = document K [heading K 1 [text K "Title"]] := by
    rfl
  refine ⟨hparse, by rw [hparse]; rfl, rfl, rfl, ?_⟩
  simp only [main, hparse]
  simp [mainOn, document, heading, Node.FirstChild, Node.children, Node.type]

/-- C5: for the input "line one", blank line, "line two", parsing produces two
sibling Paragraph nodes, and the walk in `main` prints "I found a paragraph"
exactly twice, followed respectively by "line one" and "line two". -/
theorem two_paragraphs (K : NodeTypes) :
    parse K (bytesOf "line one\n\nline two") =
        document K [paragraph K [text K "line one"], paragraph K [text K "line two"]] ∧
      (walk (parse K (bytesOf "line one\n\nline two")) (visitor K)).printed =
        [msgFound, bytesOf "line one", msgLeaving,
          msgFound, bytesOf "line two", msgLeaving] ∧
      (outputLines (walk (parse K (bytesOf "line one\n\nline two"))
        (visitor K)).printed).count msgFound = 2 := by
  have hparse : parse K (bytesOf "line one\n\nline two") =
      document K [paragraph K [text K "line one"], paragraph K [text K "line two"]] := by
    rfl
  have hd := K.document_ne_paragraph
  have ht := K.text_ne_paragraph
  have hw : (walk (parse K (bytesOf "line one\n\nline two")) (visitor K)).printed =
      [msgFound, bytesOf "line one", msgLeaving,
        msgFound, bytesOf "line two", msgLeaving] := by
    rw [hparse]
    simp [walk, walkNode, walkList, document, paragraph, text, visit, visitor, Trace.seq,
      Trace.empty, Node.type, Node.FirstChild, Node.children, Node.Literal, hd, ht]
  refine ⟨hparse, hw, ?_⟩
  rw [hw]
  decide

end MarkdownRender
